import Mathlib

/-!
Verification of the lock-free library's core against its specification.

The development shallowly embeds the C++ sources of the repository
(`include/lockfree/mpmc_queue.hpp`, `include/lockfree/aba_safe_stack.hpp`,
`include/lockfree/memory_pool.hpp`, `include/lockfree/job_system.hpp`,
`src/job_system.cpp`) as executable Lean definitions and proves the spec's
claims about them.

Modelling conventions:
  * Machine integers (`size_t`, `uintptr_t`, `uint64_t`) are `Nat`s.  Where
    64-bit wrap-around matters (statistics counters updated by `fetch_add`
    and `fetch_sub`) arithmetic is taken `% 2^64` explicitly.  Queue tickets
    (`head_`, `tail_`, slot `sequence`) are kept as unbounded `Nat`: the
    algorithm's signed difference test is exact while all tickets stay below
    `2^63`, which every run considered here does.
  * All claims are about single-threaded executions (the spec's seed tests
    and algebraic round trips are single-threaded).  A `compare_exchange`
    whose expected value matches therefore always succeeds, and a CAS retry
    loop re-reads an unchanged location.  Loops are embedded with explicit
    fuel; a loop body that retries with an unchanged state diverges, which
    the embedding reports as `none`.
  * Heap pointers are abstract addresses: natural numbers, `0` playing the
    role of `nullptr`.
-/

namespace LockFree

/-! # 1. MPMC queue (`include/lockfree/mpmc_queue.hpp`)

A `Slot` is a pair `(data, sequence)`; the queue is a `Capacity`-element
buffer of slots plus the two ticket counters `head_` and `tail_`. -/

structure MQueue (T : Type) where
  cap : Nat
  buffer : List (T × Nat)
  head : Nat
  tail : Nat
  deriving Repr, DecidableEq

/-- Constructor `MPMCQueue()`: `slot[i].sequence = i`, `head_ = tail_ = 0`.
`d0` stands for the default-initialised payload of each slot (never read
before being overwritten by a push). -/
def initQueue (T : Type) (cap : Nat) (d0 : T) : MQueue T :=
  { cap := cap
    buffer := (List.range cap).map (fun i => (d0, i))
    head := 0
    tail := 0 }

/-- One-shot embedding of `MPMCQueue::push`'s retry loop, single-threaded.

Each fuel step is one iteration of the `for (;;)` loop:
`pos = head_`, `seq = slot[pos & (Capacity-1)].sequence`,
`diff = (intptr_t)seq - (intptr_t)pos`; on `diff == 0` the CAS on `head_`
succeeds (no other thread), the payload is stored and the sequence is
published as `pos + 1`; on `diff < 0` the queue is full and `false` is
returned; otherwise the loop retries after re-reading `head_`, which in a
single-threaded run is unchanged, so the iteration repeats identically
(`none` = the loop never exits). -/
def pushAux {T : Type} : Nat → MQueue T → T → Option (MQueue T × Bool)
  | 0, _, _ => none
  | fuel + 1, q, v =>
    let pos := q.head
    let i := pos &&& (q.cap - 1)
    match q.buffer[i]? with
    | none => none
    | some slot =>
      let diff : Int := (slot.2 : Int) - (pos : Int)
      if diff = 0 then
        some ({ q with
                  buffer := q.buffer.set i (v, pos + 1)
                  head := pos + 1 }, true)
      else if diff < 0 then
        some (q, false)
      else
        pushAux fuel q v

/-- One-shot embedding of `MPMCQueue::pop`'s retry loop, single-threaded.
`out` is the current value of the caller's out-parameter `value`; it is
only assigned on the success path (`value = std::move(slot.data)`), after
which the slot's sequence is released as `pos + Capacity`. -/
def popAux {T : Type} : Nat → MQueue T → T → Option (MQueue T × T × Bool)
  | 0, _, _ => none
  | fuel + 1, q, out =>
    let pos := q.tail
    let i := pos &&& (q.cap - 1)
    match q.buffer[i]? with
    | none => none
    | some slot =>
      let diff : Int := (slot.2 : Int) - (pos : Int)
      if diff = 1 then
        some ({ q with
                  buffer := q.buffer.set i (slot.1, pos + q.cap)
                  tail := pos + 1 }, slot.1, true)
      else if diff < 1 then
        some (q, out, false)
      else
        popAux fuel q out

/-- Source `MPMCQueue::empty()`: `head_ == tail_` (two atomic loads). -/
def mqEmpty {T : Type} (q : MQueue T) : Bool := q.head == q.tail

/-- Source `MPMCQueue::full()`: `head_ - tail_ >= capacity()` (`size_t` arithmetic;
under the queue invariant `tail ≤ head`, `Nat` subtraction agrees). -/
def mqFull {T : Type} (q : MQueue T) : Bool := q.cap ≤ q.head - q.tail

/-- The payloads currently held by the queue, oldest first: the slots whose
tickets lie in `[tail_, head_)`. -/
def queueContents {T : Type} (q : MQueue T) : List T :=
  (List.range (q.head - q.tail)).filterMap
    (fun k => (q.buffer[(q.tail + k) % q.cap]?).map Prod.fst)

/-- Spec §8 scenario 2, "Queue wrap", on a capacity-4 queue: push `1,2`;
pop twice; push `3,4,5,6`; pop four times.  Returns the list of push
results and the list of popped values. -/
def wrapScenario : Option (List Bool × List (Nat × Bool)) := do
  let q0 := initQueue Nat 4 0
  let (q1, b1) ← pushAux 1 q0 1
  let (q2, b2) ← pushAux 1 q1 2
  let (q3, v1, p1) ← popAux 1 q2 0
  let (q4, v2, p2) ← popAux 1 q3 0
  let (q5, b3) ← pushAux 1 q4 3
  let (q6, b4) ← pushAux 1 q5 4
  let (q7, b5) ← pushAux 1 q6 5
  let (q8, b6) ← pushAux 1 q7 6
  let (q9, w1, r1) ← popAux 1 q8 0
  let (q10, w2, r2) ← popAux 1 q9 0
  let (q11, w3, r3) ← popAux 1 q10 0
  let (_, w4, r4) ← popAux 1 q11 0
  some ([b1, b2, b3, b4, b5, b6],
        [(v1, p1), (v2, p2), (w1, r1), (w2, r2), (w3, r3), (w4, r4)])

/-- Claim C3: On a capacity-4 queue: pushes of `1,2` succeed, two pops yield
`1` then `2`, pushes of `3,4,5,6` all succeed (slots reused one lap later),
and four pops yield `3,4,5,6` in order. -/
theorem mpmc_wrap_scenario :
    wrapScenario = some ([true, true, true, true, true, true],
      [(1, true), (2, true), (3, true), (4, true), (5, true), (6, true)]) := by
  decide

/-! ## Queue invariant and reachable states

The per-slot sequence discipline of the source (`Initially slot[i].sequence
= i`; a push at ticket `pos` publishes `pos + 1`; a pop at `pos` releases
`pos + Capacity`) gives every reachable single-threaded state the shape
described by `QInv`. -/

def QInv {T : Type} (q : MQueue T) : Prop :=
  ∃ k, q.cap = 2 ^ k ∧ 1 ≤ k ∧ q.buffer.length = q.cap ∧
    q.tail ≤ q.head ∧ q.head ≤ q.tail + q.cap ∧
    ∀ p, q.tail ≤ p → p < q.tail + q.cap →
      ∃ d, q.buffer[p % q.cap]? = some (d, if p < q.head then p + 1 else p)

/-- Queue states reachable by single-threaded use: the freshly constructed
queue (`Capacity` a power of two `≥ 2`, as the `static_assert`s require),
closed under completed `push` and `pop` calls. -/
inductive Reach (T : Type) : MQueue T → Prop
  | init (k : Nat) (hk : 1 ≤ k) (d0 : T) : Reach T (initQueue T (2 ^ k) d0)
  | push (q q' : MQueue T) (v : T) (b : Bool) (fuel : Nat) :
      Reach T q → pushAux fuel q v = some (q', b) → Reach T q'
  | pop (q q' : MQueue T) (out v : T) (b : Bool) (fuel : Nat) :
      Reach T q → popAux fuel q out = some (q', v, b) → Reach T q'

theorem mqFull_iff {T : Type} (q : MQueue T) (h : QInv q) :
    mqFull q = true ↔ q.head = q.tail + q.cap := by
  obtain ⟨k, hcap, hk, hlen, hth, hht, hslot⟩ := h
  have hcap2 : 2 ≤ q.cap := by
    rw [hcap]
    calc 2 = 2 ^ 1 := by norm_num
    _ ≤ 2 ^ k := Nat.pow_le_pow_right (by norm_num) hk
  unfold mqFull
  simp only [decide_eq_true_eq]
  omega

/-- Two tickets in one window of `cap` consecutive values that share a slot
index are equal. -/
theorem window_mod_inj {c t a b : Nat} (ha1 : t ≤ a) (ha2 : a < t + c)
    (hb1 : t ≤ b) (hb2 : b < t + c) (h : a % c = b % c) : a = b := by
  rcases Nat.le_total a b with hab | hab
  · by_contra hne
    have hdvd : c ∣ b - a := (Nat.modEq_iff_dvd' hab).mp h
    have hpos : 0 < b - a := by omega
    have := Nat.le_of_dvd hpos hdvd
    omega
  · by_contra hne
    have hdvd : c ∣ a - b := (Nat.modEq_iff_dvd' hab).mp h.symm
    have hpos : 0 < a - b := by omega
    have := Nat.le_of_dvd hpos hdvd
    omega

/-- Single-threaded behaviour of the `push` loop on an invariant state: the
first iteration already decides the call — CAS success on a non-full queue,
`false` on a full one.  In particular no internal retry happens. -/
theorem pushAux_behavior {T : Type} (q : MQueue T) (v : T) (hq : QInv q) (fuel : Nat) :
    pushAux (fuel + 1) q v =
      (if q.head = q.tail + q.cap then some (q, false)
       else some ({ q with
                      buffer := q.buffer.set (q.head % q.cap) (v, q.head + 1)
                      head := q.head + 1 }, true)) := by
  obtain ⟨k, hcap, hk, hlen, hth, hht, hslot⟩ := hq
  have hcap2 : 2 ≤ q.cap := by
    rw [hcap]
    calc 2 = 2 ^ 1 := by norm_num
    _ ≤ 2 ^ k := Nat.pow_le_pow_right (by norm_num) hk
  have hidx : q.head &&& (q.cap - 1) = q.head % q.cap := by
    rw [hcap]; exact Nat.and_pow_two_sub_one_eq_mod _ _
  by_cases hfull : q.head = q.tail + q.cap
  · rw [if_pos hfull]
    have hmod : q.head % q.cap = q.tail % q.cap := by
      rw [hfull, Nat.add_mod_right]
    obtain ⟨d, hd⟩ := hslot q.tail (le_refl _) (by omega)
    have htlt : q.tail < q.head := by omega
    rw [if_pos htlt] at hd
    have h0 : ¬ (((q.tail + 1 : Nat) : Int) - ((q.head : Nat) : Int) = 0) := by
      push_cast; omega
    have hneg : ((q.tail + 1 : Nat) : Int) - ((q.head : Nat) : Int) < 0 := by
      push_cast; omega
    simp only [pushAux, hidx, hmod, hd]
    rw [if_neg h0, if_pos hneg]
  · rw [if_neg hfull]
    have hlt : q.head < q.tail + q.cap := by omega
    obtain ⟨d, hd⟩ := hslot q.head hth hlt
    rw [if_neg (lt_irrefl _)] at hd
    have h0 : ((q.head : Nat) : Int) - ((q.head : Nat) : Int) = 0 := by omega
    simp only [pushAux, hidx, hd]
    rw [if_pos h0]

/-- Single-threaded behaviour of the `pop` loop on an invariant state: the
first iteration decides the call — on a non-empty queue it returns the slot
at ticket `tail` and releases its sequence as `tail + Capacity`; on an
empty queue it fails leaving the out-parameter alone. -/
theorem popAux_behavior {T : Type} (q : MQueue T) (out : T) (hq : QInv q) (fuel : Nat) :
    popAux (fuel + 1) q out =
      (if _h : q.head = q.tail then some (q, out, false)
       else
         match q.buffer[q.tail % q.cap]? with
         | some slot =>
             some ({ q with
                       buffer := q.buffer.set (q.tail % q.cap) (slot.1, q.tail + q.cap)
                       tail := q.tail + 1 }, slot.1, true)
         | none => none) := by
  obtain ⟨k, hcap, hk, hlen, hth, hht, hslot⟩ := hq
  have hcap2 : 2 ≤ q.cap := by
    rw [hcap]
    calc 2 = 2 ^ 1 := by norm_num
    _ ≤ 2 ^ k := Nat.pow_le_pow_right (by norm_num) hk
  have hidx : q.tail &&& (q.cap - 1) = q.tail % q.cap := by
    rw [hcap]; exact Nat.and_pow_two_sub_one_eq_mod _ _
  obtain ⟨d, hd⟩ := hslot q.tail (le_refl _) (by omega)
  by_cases hempty : q.head = q.tail
  · rw [dif_pos hempty]
    rw [if_neg (by omega)] at hd
    have h1 : ¬ (((q.tail : Nat) : Int) - ((q.tail : Nat) : Int) = 1) := by omega
    have hlt : ((q.tail : Nat) : Int) - ((q.tail : Nat) : Int) < 1 := by omega
    simp only [popAux, hidx, hd]
    rw [if_neg h1, if_pos hlt]
  · rw [dif_neg hempty]
    have htlt : q.tail < q.head := by omega
    rw [if_pos htlt] at hd
    have h1 : ((q.tail + 1 : Nat) : Int) - ((q.tail : Nat) : Int) = 1 := by
      push_cast; omega
    simp only [popAux, hidx, hd]
    rw [if_pos h1]

/-- A completed `push` preserves the queue invariant. -/
theorem QInv_push {T : Type} (q : MQueue T) (v : T) (hq : QInv q)
    (hne : ¬ q.head = q.tail + q.cap) :
    QInv { q with
             buffer := q.buffer.set (q.head % q.cap) (v, q.head + 1)
             head := q.head + 1 } := by
  obtain ⟨k, hcap, hk, hlen, hth, hht, hslot⟩ := hq
  have hcappos : 0 < q.cap := by rw [hcap]; exact Nat.pos_pow_of_pos _ (by norm_num)
  refine ⟨k, hcap, hk, by simpa using hlen, by simp; omega, by simp; omega, ?_⟩
  intro p hp1 hp2
  simp only at hp1 hp2 ⊢
  by_cases hph : p = q.head
  · subst hph
    refine ⟨v, ?_⟩
    rw [if_pos (by omega)]
    rw [List.getElem?_set_self (by rw [hlen]; exact Nat.mod_lt _ hcappos)]
  · obtain ⟨d, hd⟩ := hslot p hp1 hp2
    refine ⟨d, ?_⟩
    have hmodne : p % q.cap ≠ q.head % q.cap := by
      intro hcon
      exact hph (window_mod_inj hp1 hp2 hth (by omega) hcon)
    rw [List.getElem?_set_ne (Ne.symm hmodne)]
    rw [hd]
    by_cases hlt : p < q.head
    · rw [if_pos hlt, if_pos (by omega)]
    · rw [if_neg hlt, if_neg (by omega)]

/-- A completed `pop` preserves the queue invariant. -/
theorem QInv_pop {T : Type} (q : MQueue T) (d : T) (hq : QInv q)
    (hne : ¬ q.head = q.tail) :
    QInv { q with
             buffer := q.buffer.set (q.tail % q.cap) (d, q.tail + q.cap)
             tail := q.tail + 1 } := by
  obtain ⟨k, hcap, hk, hlen, hth, hht, hslot⟩ := hq
  have hcappos : 0 < q.cap := by rw [hcap]; exact Nat.pos_pow_of_pos _ (by norm_num)
  refine ⟨k, hcap, hk, by simpa using hlen, by simp; omega, by simp; omega, ?_⟩
  intro p hp1 hp2
  simp only at hp1 hp2 ⊢
  by_cases hpt : p = q.tail + q.cap
  · subst hpt
    refine ⟨d, ?_⟩
    have hmod : (q.tail + q.cap) % q.cap = q.tail % q.cap := Nat.add_mod_right _ _
    rw [hmod, if_neg (by omega)]
    rw [List.getElem?_set_self (by rw [hlen]; exact Nat.mod_lt _ hcappos)]
  · obtain ⟨e, he⟩ := hslot p (by omega) (by omega)
    refine ⟨e, ?_⟩
    have hmodne : p % q.cap ≠ q.tail % q.cap := by
      intro hcon
      have : p = q.tail := window_mod_inj (t := q.tail) (by omega) (by omega)
        (le_refl _) (by omega) hcon
      omega
    rw [List.getElem?_set_ne (Ne.symm hmodne), he]

theorem QInv_init {T : Type} (k : Nat) (hk : 1 ≤ k) (d0 : T) :
    QInv (initQueue T (2 ^ k) d0) := by
  refine ⟨k, rfl, hk, by simp [initQueue], by simp [initQueue], by simp [initQueue], ?_⟩
  intro p hp1 hp2
  simp only [initQueue] at hp1 hp2 ⊢
  have hplt : p < 2 ^ k := by omega
  have hmod : p % 2 ^ k = p := Nat.mod_eq_of_lt hplt
  refine ⟨d0, ?_⟩
  rw [hmod, if_neg (by omega), List.getElem?_map, List.getElem?_range hplt]
  rfl

/-- Every reachable queue state satisfies the invariant. -/
theorem Reach_QInv {T : Type} (q : MQueue T) (h : Reach T q) : QInv q := by
  induction h with
  | init k hk d0 => exact QInv_init k hk d0
  | push q q' v b fuel hr hstep ih =>
    cases fuel with
    | zero => exact absurd hstep (by simp [pushAux])
    | succ f =>
      rw [pushAux_behavior q v ih f] at hstep
      by_cases hfull : q.head = q.tail + q.cap
      · rw [if_pos hfull] at hstep
        cases hstep
        exact ih
      · rw [if_neg hfull] at hstep
        cases hstep
        exact QInv_push q v ih hfull
  | pop q q' out v b fuel hr hstep ih =>
    cases fuel with
    | zero => exact absurd hstep (by simp [popAux])
    | succ f =>
      rw [popAux_behavior q out ih f] at hstep
      by_cases hempty : q.head = q.tail
      · rw [dif_pos hempty] at hstep
        cases hstep
        exact ih
      · rw [dif_neg hempty] at hstep
        obtain ⟨kk, hcap, hkk, hlen, hth, hht, hslot⟩ := ih
        obtain ⟨d, hd⟩ := hslot q.tail (le_refl _) (by
          have : 0 < q.cap := by rw [hcap]; exact Nat.pos_pow_of_pos _ (by norm_num)
          omega)
        rw [hd] at hstep
        simp only at hstep
        cases hstep
        exact QInv_pop q _ ⟨kk, hcap, hkk, hlen, hth, hht, hslot⟩ hempty

/-- Claim C4:  On every reachable queue state: a push onto a full queue
returns `false` with the queue unchanged; a pop from an empty queue
returns `false` with the queue and the caller's out-parameter unchanged;
push fails only on full and pop only on empty (each succeeds otherwise);
and both calls are decided by their first loop iteration — no internal
retry, whatever fuel the loop is given. -/
theorem mpmc_failure_semantics {T : Type} (q : MQueue T) (v out : T) (fuel : Nat)
    (hq : Reach T q) :
    (mqFull q = true → pushAux (fuel + 1) q v = some (q, false)) ∧
    (mqFull q = false → ∃ q', pushAux (fuel + 1) q v = some (q', true)) ∧
    (mqEmpty q = true → popAux (fuel + 1) q out = some (q, out, false)) ∧
    (mqEmpty q = false → ∃ q' w, popAux (fuel + 1) q out = some (q', w, true)) ∧
    pushAux (fuel + 1) q v = pushAux 1 q v ∧
    popAux (fuel + 1) q out = popAux 1 q out := by
  have hinv := Reach_QInv q hq
  have hfull := mqFull_iff q hinv
  have hpush := pushAux_behavior q v hinv fuel
  have hpop := popAux_behavior q out hinv fuel
  have hpush1 := pushAux_behavior q v hinv 0
  have hpop1 := popAux_behavior q out hinv 0
  obtain ⟨k, hcap, hk, hlen, hth, hht, hslot⟩ := hinv
  have hcappos : 0 < q.cap := by rw [hcap]; exact Nat.pos_pow_of_pos _ (by norm_num)
  refine ⟨?_, ?_, ?_, ?_, ?_, ?_⟩
  · intro hf
    rw [hpush, if_pos (hfull.mp hf)]
  · intro hf
    have hne : ¬ q.head = q.tail + q.cap := by
      intro hcon
      rw [hfull.mpr hcon] at hf
      exact Bool.noConfusion hf
    rw [hpush, if_neg hne]
    exact ⟨_, rfl⟩
  · intro he
    have heq : q.head = q.tail := by
      simpa [mqEmpty] using he
    rw [hpop, dif_pos heq]
  · intro he
    have hne : ¬ q.head = q.tail := by
      simp [mqEmpty] at he
      exact he
    obtain ⟨d, hd⟩ := hslot q.tail (le_refl _) (by omega)
    rw [hpop, dif_neg hne, hd]
    exact ⟨_, _, rfl⟩
  · rw [hpush, hpush1]
  · rw [hpop, hpop1]

/-- Witness for C4 at a concrete reachable state: the freshly constructed
capacity-2 queue is empty, and a pop on it fails leaving the out-parameter
`7` unchanged. -/
theorem mpmc_failure_semantics_witness :
    mqEmpty (initQueue Nat (2 ^ 1) 0) = true ∧
    popAux 1 (initQueue Nat (2 ^ 1) 0) 7 = some (initQueue Nat (2 ^ 1) 0, 7, false) :=
  ⟨by decide,
   (mpmc_failure_semantics (initQueue Nat (2 ^ 1) 0) 5 7 0
     (Reach.init 1 (le_refl 1) 0)).2.2.1 (by decide)⟩

/-! # 2. Packed tagged pointers

Shared bit-manipulation facts for `ABASafeStack`'s packed `head_` word and
`MemoryPool::TaggedPtr`.  Addresses are `Nat`s below `2^48` (the canonical
48-bit virtual addresses the source assumes), `0` is `nullptr`. -/

theorem lor_shiftLeft_eq_add {p t : Nat} (hp : p < 2 ^ 48) :
    p ||| (t <<< 48) = 2 ^ 48 * t + p := by
  apply Nat.eq_of_testBit_eq
  intro j
  rw [Nat.testBit_or, Nat.testBit_shiftLeft, Nat.testBit_mul_pow_two_add t hp j]
  by_cases hj : j < 48
  · simp [hj, Nat.not_le.mpr hj]
  · have hge : 48 ≤ j := Nat.not_lt.mp hj
    have hpz : p.testBit j = false :=
      Nat.testBit_lt_two_pow (lt_of_lt_of_le hp (Nat.pow_le_pow_right (by norm_num) hge))
    simp [hj, hge, hpz]

namespace ABASafeStack

/-- Source `ABASafeStack::PTR_MASK = (1ULL << PTR_BITS) - 1` with `PTR_BITS = 48`. -/
def PTR_MASK : Nat := (1 <<< 48) - 1

theorem ptr_mask_eq : PTR_MASK = 2 ^ 48 - 1 := by
  unfold PTR_MASK
  rw [Nat.shiftLeft_eq]
  norm_num

/-- Source `ABASafeStack::pack(ptr, tag)`: `(ptr & PTR_MASK) | ((uintptr_t)tag << 48)`.
The `% 2 ^ 16` models the `std::uint16_t` type of the `tag` parameter, to
which callers' `get_tag(h) + 1` arguments are implicitly converted. -/
def pack (p t : Nat) : Nat := (p &&& PTR_MASK) ||| ((t % 2 ^ 16) <<< 48)

/-- Source `ABASafeStack::get_ptr(packed)`: `packed & PTR_MASK`. -/
def get_ptr (w : Nat) : Nat := w &&& PTR_MASK

/-- Source `ABASafeStack::get_tag(packed)`: `(uint16_t)(packed >> 48)`. -/
def get_tag (w : Nat) : Nat := (w >>> 48) % 2 ^ 16

theorem and_ptr_mask (x : Nat) : x &&& PTR_MASK = x % 2 ^ 48 := by
  rw [ptr_mask_eq]
  exact Nat.and_pow_two_sub_one_eq_mod x 48

theorem pack_eq_add {p : Nat} (t : Nat) (hp : p < 2 ^ 48) :
    pack p t = 2 ^ 48 * (t % 2 ^ 16) + p := by
  unfold pack
  rw [and_ptr_mask, Nat.mod_eq_of_lt hp, lor_shiftLeft_eq_add hp]

theorem get_ptr_pack {p : Nat} (t : Nat) (hp : p < 2 ^ 48) :
    get_ptr (pack p t) = p := by
  rw [pack_eq_add t hp]
  unfold get_ptr
  rw [and_ptr_mask, Nat.mul_add_mod, Nat.mod_eq_of_lt hp]

theorem get_tag_pack {p : Nat} (t : Nat) (hp : p < 2 ^ 48) :
    get_tag (pack p t) = t % 2 ^ 16 := by
  rw [pack_eq_add t hp]
  unfold get_tag
  rw [Nat.shiftRight_eq_div_pow, Nat.mul_add_div (by norm_num), Nat.div_eq_of_lt hp]
  omega

/-! ## The stack itself (`ABASafeStack<T>`)

A `Node { data, next }` lives on the heap at an abstract nonzero address;
`heap` is the set of live nodes as an association list
`(address, data, next-address)`, `nextAlloc` the allocator's next fresh
address, `head` the packed `(tag | pointer)` word `head_`. -/

structure Stack (T : Type) where
  heap : List (Nat × T × Nat)
  head : Nat
  nextAlloc : Nat
  deriving Repr, DecidableEq

/-- Source `ABASafeStack()` : `head_ = pack(nullptr, 0)`.  `a0` is the allocator's
first fresh address. -/
def mkStack (T : Type) (a0 : Nat) : Stack T :=
  { heap := [], head := pack 0 0, nextAlloc := a0 }

/-- Source `ABASafeStack::push(value)`, single-threaded: allocate
`Node{value, nullptr}`, set `node->next = get_ptr(head_)`, CAS `head_` to
`pack(node, get_tag(head_) + 1)` — which succeeds on the first try with no
other thread. -/
def push {T : Type} (s : Stack T) (v : T) : Stack T :=
  { heap := s.heap ++ [(s.nextAlloc, v, get_ptr s.head)]
    head := pack s.nextAlloc (get_tag s.head + 1)
    nextAlloc := s.nextAlloc + 1 }

/-- Source `ABASafeStack::pop()`, single-threaded: read `head_`; if its pointer is
null return `nullopt`; otherwise CAS `head_` to
`pack(old_ptr->next, get_tag(head_) + 1)` (first-try success), move the
data out and `delete` the node.  The outer `none` marks the dereference of
a head pointer that is not a live node — a memory error that well-formed
states never exhibit. -/
def pop {T : Type} (s : Stack T) : Option (Stack T × Option T) :=
  let p := get_ptr s.head
  if p = 0 then some (s, none)
  else
    match s.heap.find? (fun e => e.1 == p) with
    | none => none
    | some e =>
      some ({ heap := s.heap.eraseP (fun e2 => e2.1 == p)
              head := pack e.2.2 (get_tag s.head + 1)
              nextAlloc := s.nextAlloc }, some e.2.1)

/-- Source `ABASafeStack::empty()`: `get_ptr(head_.load()) == nullptr`. -/
def isEmpty {T : Type} (s : Stack T) : Bool := get_ptr s.head == 0

/-- Well-formed stack states: the allocator hands out nonzero addresses
below `2^48` (canonical user-space addresses), fresh w.r.t. all live
nodes. -/
def wf {T : Type} (s : Stack T) : Prop :=
  0 < s.nextAlloc ∧ s.nextAlloc < 2 ^ 48 ∧
  ∀ e ∈ s.heap, e.1 ≠ 0 ∧ e.1 < s.nextAlloc

/-- Claim C5:  On any well-formed empty stack: `pop()` returns the empty
variant and leaves the stack untouched, and `push(v)` followed by `pop()`
returns `Some v` and leaves the stack empty with the node deallocated. -/
theorem stack_push_pop_roundtrip {T : Type} (s : Stack T) (v : T)
    (hwf : wf s) (hempty : get_ptr s.head = 0) :
    pop s = some (s, none) ∧
    ∃ s', pop (push s v) = some (s', some v) ∧
      isEmpty s' = true ∧ s'.heap = s.heap := by
  obtain ⟨hpos, hlt, hfresh⟩ := hwf
  constructor
  · simp [pop, hempty]
  · have hgp : get_ptr (pack s.nextAlloc (get_tag s.head + 1)) = s.nextAlloc :=
      get_ptr_pack _ hlt
    have hne : ¬ s.nextAlloc = 0 := by omega
    have hnone : s.heap.find? (fun e => e.1 == s.nextAlloc) = none := by
      rw [List.find?_eq_none]
      intro e he
      have := (hfresh e he).2
      simp only [beq_iff_eq]
      omega
    have hfind2 : List.find? (fun e => e.1 == s.nextAlloc)
        (s.heap ++ [(s.nextAlloc, v, 0)]) = some (s.nextAlloc, v, 0) := by
      rw [List.find?_append, hnone]
      simp
    have herase2 : List.eraseP (fun e => e.1 == s.nextAlloc)
        (s.heap ++ [(s.nextAlloc, v, 0)]) = s.heap := by
      rw [List.eraseP_append_right _ (by
        intro e he
        have := (hfresh e he).2
        simp only [beq_iff_eq]
        omega)]
      simp
    refine ⟨{ heap := s.heap
              head := pack 0 (get_tag (pack s.nextAlloc (get_tag s.head + 1)) + 1)
              nextAlloc := s.nextAlloc + 1 }, ?_, ?_, ?_⟩
    · simp only [pop, push, hempty, hgp, hfind2, herase2, if_neg hne]
    · simp only [isEmpty]
      rw [get_ptr_pack _ (by norm_num : (0 : Nat) < 2 ^ 48)]
      rfl
    · rfl

/-- Closed witness for C5: on the freshly constructed empty stack (first
heap address `1`), push `42` then pop returns `42` and the stack is empty
again. -/
theorem stack_push_pop_roundtrip_witness :
    wf (mkStack Nat 1) ∧ get_ptr (mkStack Nat 1).head = 0 ∧
    pop (mkStack Nat 1) = some (mkStack Nat 1, none) ∧
    ∃ s', pop (push (mkStack Nat 1) 42) = some (s', some 42) ∧
      isEmpty s' = true ∧ s'.heap = (mkStack Nat 1).heap := by
  have hwf : wf (mkStack Nat 1) := by
    refine ⟨by norm_num [mkStack], by norm_num [mkStack], ?_⟩
    intro e he
    simp [mkStack] at he
  have hemp : get_ptr (mkStack Nat 1).head = 0 := by decide
  have h := stack_push_pop_roundtrip (mkStack Nat 1) 42 hwf hemp
  exact ⟨hwf, hemp, h.1, h.2⟩

end ABASafeStack

/-! # 3. Memory pool (`include/lockfree/memory_pool.hpp`)

`MemoryPool<T>::TaggedPtr` packs a `FreeNode*` and a 16-bit version tag
into one `uint64_t` `value_`; comparison is comparison of the packed
words. -/

namespace MemoryPool

/-- Source `TaggedPtr::PTR_MASK = 0x0000FFFFFFFFFFFF` (low 48 bits). -/
def PTR_MASK : Nat := 0x0000FFFFFFFFFFFF

/-- Source `TaggedPtr::TAG_MASK = 0xFFFF000000000000` (high 16 bits). -/
def TAG_MASK : Nat := 0xFFFF000000000000

/-- Source `TaggedPtr::TAG_SHIFT = 48`. -/
def TAG_SHIFT : Nat := 48

/-- Source `TaggedPtr(FreeNode* ptr, uint16_t tag)` constructor:
`value_ = (ptr & PTR_MASK) | ((uint64_t)tag << TAG_SHIFT)`.  The `% 2 ^ 16`
models the `uint16_t` parameter type to which callers' tag expressions are
converted. -/
def mkTagged (p t : Nat) : Nat := (p &&& PTR_MASK) ||| ((t % 2 ^ 16) <<< TAG_SHIFT)

/-- Source `TaggedPtr::ptr()`: `value_ & PTR_MASK`. -/
def ptr (v : Nat) : Nat := v &&& PTR_MASK

/-- Source `TaggedPtr::tag()`: `(value_ & TAG_MASK) >> TAG_SHIFT`. -/
def tag (v : Nat) : Nat := (v &&& TAG_MASK) >>> TAG_SHIFT

/-- The tag expression used by `pop_free_node` and `push_free_node`:
`static_cast<std::uint16_t>(old_head.tag() + 1)` — increment wrapping
modulo `2 ^ 16`. -/
def nextTag (t : Nat) : Nat := (t + 1) % 2 ^ 16

theorem pool_ptr_mask_eq : PTR_MASK = 2 ^ 48 - 1 := by norm_num [PTR_MASK]

theorem pool_tag_mask_eq : TAG_MASK = 2 ^ 48 * (2 ^ 16 - 1) + 0 := by
  norm_num [TAG_MASK]

theorem and_pool_ptr_mask (x : Nat) : x &&& PTR_MASK = x % 2 ^ 48 := by
  rw [pool_ptr_mask_eq]
  exact Nat.and_pow_two_sub_one_eq_mod x 48

theorem mkTagged_eq_add {p : Nat} (t : Nat) (hp : p < 2 ^ 48) :
    mkTagged p t = 2 ^ 48 * (t % 2 ^ 16) + p := by
  unfold mkTagged TAG_SHIFT
  rw [and_pool_ptr_mask, Nat.mod_eq_of_lt hp, lor_shiftLeft_eq_add hp]

theorem and_tag_mask {a b : Nat} (ha : a < 2 ^ 16) (hb : b < 2 ^ 48) :
    (2 ^ 48 * a + b) &&& TAG_MASK = 2 ^ 48 * a := by
  apply Nat.eq_of_testBit_eq
  intro j
  rw [Nat.testBit_and, Nat.testBit_mul_pow_two_add a hb j, pool_tag_mask_eq,
    Nat.testBit_mul_pow_two_add (2 ^ 16 - 1) (by norm_num) j,
    Nat.testBit_mul_pow_two]
  by_cases hj : j < 48
  · simp [hj, Nat.not_le.mpr hj]
  · have hge : 48 ≤ j := Nat.not_lt.mp hj
    rw [if_neg hj, if_neg hj]
    simp only [hge, Nat.testBit_two_pow_sub_one, ge_iff_le, decide_eq_true hge,
      Bool.true_and]
    by_cases hlt : j - 48 < 16
    · simp [hlt]
    · have : a.testBit (j - 48) = false :=
        Nat.testBit_lt_two_pow
          (lt_of_lt_of_le ha (Nat.pow_le_pow_right (by norm_num) (Nat.not_lt.mp hlt)))
      simp [this, hlt]

theorem ptr_mkTagged {p : Nat} (t : Nat) (hp : p < 2 ^ 48) :
    ptr (mkTagged p t) = p := by
  rw [mkTagged_eq_add t hp]
  unfold ptr
  rw [and_pool_ptr_mask, Nat.mul_add_mod, Nat.mod_eq_of_lt hp]

theorem tag_mkTagged {p : Nat} (t : Nat) (hp : p < 2 ^ 48) :
    tag (mkTagged p t) = t % 2 ^ 16 := by
  rw [mkTagged_eq_add t hp]
  unfold tag TAG_SHIFT
  rw [and_tag_mask (Nat.mod_lt _ (by norm_num)) hp, Nat.shiftRight_eq_div_pow,
    Nat.mul_div_cancel_left _ (by norm_num)]

/-- Claim C7:  Packing an address below `2^48` with a 16-bit tag and
unpacking recovers exactly both fields; two packed tagged pointers are
equal iff both address and tag agree; and the tag increment used by the
free-list CAS loops wraps modulo `2^16`. -/
theorem taggedptr_pack_roundtrip (p t p2 t2 : Nat) (hp : p < 2 ^ 48) (ht : t < 2 ^ 16)
    (hp2 : p2 < 2 ^ 48) (ht2 : t2 < 2 ^ 16) :
    ptr (mkTagged p t) = p ∧
    tag (mkTagged p t) = t ∧
    (mkTagged p t = mkTagged p2 t2 ↔ (p = p2 ∧ t = t2)) ∧
    tag (mkTagged p (nextTag t)) = (t + 1) % 2 ^ 16 ∧
    nextTag (2 ^ 16 - 1) = 0 := by
  refine ⟨ptr_mkTagged t hp, ?_, ?_, ?_, by norm_num [nextTag]⟩
  · rw [tag_mkTagged t hp]
    exact Nat.mod_eq_of_lt ht
  · rw [mkTagged_eq_add t hp, mkTagged_eq_add t2 hp2,
      Nat.mod_eq_of_lt ht, Nat.mod_eq_of_lt ht2]
    constructor
    · intro h
      constructor <;> omega
    · intro h
      omega
  · rw [tag_mkTagged _ hp]
    unfold nextTag
    omega

/-- Witness for C7 at concrete inputs `(p, t) = (0x1234, 7)` and
`(p2, t2) = (0x1234, 8)`. -/
theorem taggedptr_pack_roundtrip_witness :
    ptr (mkTagged 0x1234 7) = 0x1234 ∧
    tag (mkTagged 0x1234 7) = 7 ∧
    (mkTagged 0x1234 7 = mkTagged 0x1234 8 ↔ ((0x1234 : Nat) = 0x1234 ∧ (7 : Nat) = 8)) ∧
    tag (mkTagged 0x1234 (nextTag 7)) = (7 + 1) % 2 ^ 16 ∧
    nextTag (2 ^ 16 - 1) = 0 :=
  taggedptr_pack_roundtrip 0x1234 7 0x1234 8 (by norm_num) (by norm_num)
    (by norm_num) (by norm_num)

end MemoryPool

/-- Source `2^64`: modulus of the `std::size_t` statistics counters. -/
def U64 : Nat := 2 ^ 64

namespace MemoryPool

/-! ## Pool state

A block address is abstracted as `(chunk index, block index)` — the
address `chunks_[c].block_at(i)`; distinct pairs are distinct addresses.
The intrusive free list (`FreeNode* next` chains through unallocated
blocks) is modelled as the list of block addresses from head to tail, and
the tagged head word by `freeTag` (its version tag).  Single-threaded, the
free-list CAS loops of `push_free_node` / `pop_free_node` succeed on their
first iteration. -/

structure PoolState where
  chunks : List Nat
  freeList : List (Nat × Nat)
  freeTag : Nat
  totalBlocks : Nat
  allocatedCount : Nat
  chunkSize : Nat
  growable : Bool
  deriving Repr, DecidableEq

/-- Source `MemoryPool::push_free_node(node)`: links `node->next` to the current
head and CAS-installs `TaggedPtr{node, old_tag + 1}`. -/
def push_free_node (s : PoolState) (b : Nat × Nat) : PoolState :=
  { s with
      freeList := b :: s.freeList
      freeTag := nextTag s.freeTag }

/-- Source `MemoryPool::pop_free_node()`: on a non-null head, CAS-installs
`TaggedPtr{head->next, old_tag + 1}` and returns the old head; returns
null on an empty list. -/
def pop_free_node (s : PoolState) : PoolState × Option (Nat × Nat) :=
  match s.freeList with
  | [] => (s, none)
  | b :: rest =>
    ({ s with
         freeList := rest
         freeTag := nextTag s.freeTag }, some b)

/-- Source `MemoryPool::add_chunk(block_count)`: under the chunks spin flag,
`emplace_back` a chunk; after releasing the flag, push blocks
`0 .. block_count-1` of the new chunk to the free list and add
`block_count` to `total_blocks_`. -/
def add_chunk (s : PoolState) (block_count : Nat) : PoolState :=
  let idx := s.chunks.length
  let s1 := { s with chunks := s.chunks ++ [block_count] }
  let s2 := (List.range block_count).foldl (fun st i => push_free_node st (idx, i)) s1
  { s2 with totalBlocks := (s2.totalBlocks + block_count) % U64 }

/-- Source `MemoryPool::allocate()`: pop the free list; if empty and `growable_`,
`add_chunk(chunk_size_)` and pop again; on success bump
`allocated_count_`. -/
def allocate (s : PoolState) : PoolState × Option (Nat × Nat) :=
  let r := pop_free_node s
  match r with
  | (s1, some b) => ({ s1 with allocatedCount := (s1.allocatedCount + 1) % U64 }, some b)
  | (s1, none) =>
    if s.growable then
      let s2 := add_chunk s1 s1.chunkSize
      match pop_free_node s2 with
      | (s3, some b) => ({ s3 with allocatedCount := (s3.allocatedCount + 1) % U64 }, some b)
      | (s3, none) => (s3, none)
    else (s1, none)

/-- Source `MemoryPool::deallocate(ptr)`: `if (ptr == nullptr) return;` else push
the block back and decrement `allocated_count_` (`fetch_sub` on a
`size_t`). -/
def deallocate (s : PoolState) (p : Option (Nat × Nat)) : PoolState :=
  match p with
  | none => s
  | some b =>
    let s1 := push_free_node s b
    { s1 with allocatedCount := (s1.allocatedCount + (U64 - 1)) % U64 }

/-- Source `MemoryPool::destroy(ptr)`: `if (ptr) { ptr->~T(); deallocate(ptr); }` —
the destructor call does not touch the pool state. -/
def destroy (s : PoolState) (p : Option (Nat × Nat)) : PoolState :=
  match p with
  | none => s
  | some b => deallocate s (some b)

/-- Source `MemoryPool(initial_capacity, growable, chunk_size)` constructor:
`chunk_size_ = chunk_size > 0 ? chunk_size : initial_capacity`, then
`add_chunk(initial_capacity)`. -/
def mkPool (initial_capacity : Nat) (growable : Bool) (chunk_size : Nat) : PoolState :=
  add_chunk
    { chunks := []
      freeList := []
      freeTag := 0
      totalBlocks := 0
      allocatedCount := 0
      chunkSize := if chunk_size > 0 then chunk_size else initial_capacity
      growable := growable } initial_capacity

/-- Source `MemoryPool::allocated_count()`. -/
def allocated_count (s : PoolState) : Nat := s.allocatedCount

/-- Claim C10:  `deallocate(nullptr)` and `destroy(nullptr)` return without
touching any pool state. -/
theorem pool_null_noop (s : PoolState) :
    deallocate s none = s ∧ destroy s none = s :=
  ⟨rfl, rfl⟩

/-! ## C2: the order of the chunk-growth steps

`add_chunk` and the growth path of `allocate` are also embedded as traces
of their observable steps, in source order (memory_pool.hpp:489-501 and
333-348). -/

inductive PoolEv where
  | acquireLock
  | appendChunk
  | releaseLock
  | pushBlock (i : Nat)
  | addTotal
  | popAttempt
  deriving Repr, DecidableEq

/-- Steps of `MemoryPool::add_chunk(block_count)` in source order:
`acquire_chunks_lock()`; `chunks_.emplace_back(...)`;
`release_chunks_lock()`; then the push loop over the chunk's blocks; then
`total_blocks_.fetch_add(...)`. -/
def add_chunk_events (block_count : Nat) : List PoolEv :=
  [PoolEv.acquireLock, PoolEv.appendChunk, PoolEv.releaseLock]
    ++ (List.range block_count).map PoolEv.pushBlock
    ++ [PoolEv.addTotal]

/-- Steps of `MemoryPool::allocate()` on the empty-and-growable path: the
failed `pop_free_node()`, all of `add_chunk(chunk_size_)`, the retried
`pop_free_node()`. -/
def allocate_grow_events (block_count : Nat) : List PoolEv :=
  [PoolEv.popAttempt] ++ add_chunk_events block_count ++ [PoolEv.popAttempt]

/-- The ordering asserted by claim C2: every push of a new block to the
free list happens before the spin flag is released. -/
def PushesBeforeRelease (evs : List PoolEv) : Prop :=
  ∀ (i j a : Nat),
    evs[i]? = some (PoolEv.pushBlock a) → evs[j]? = some PoolEv.releaseLock → i < j

/-- Claim C2, counterexample:  Already for a one-block chunk the claimed
order is violated: in the growth path of `allocate` the flag release (step
3) precedes the block push (step 4) — `add_chunk` releases the spin flag
before pushing the new chunk's blocks, not after. -/
theorem pool_growth_order_cex : ¬ PushesBeforeRelease (allocate_grow_events 1) := by
  intro h
  unfold PushesBeforeRelease at h
  have h43 := h 4 3 0 (by decide) (by decide)
  omega

/-- Claim C2, amended:  The growth steps occur in the order: acquire the
chunks spin flag, append the chunk, release the flag, then push all of the
new chunk's blocks to the free list, then update `total_blocks_`, and only
then retry the pop.  (Every block is pushed after the flag is released and
before the pop is retried.) -/
theorem pool_growth_order (n : Nat) :
    (allocate_grow_events n).length = 6 + n ∧
    (allocate_grow_events n)[0]? = some PoolEv.popAttempt ∧
    (allocate_grow_events n)[1]? = some PoolEv.acquireLock ∧
    (allocate_grow_events n)[2]? = some PoolEv.appendChunk ∧
    (allocate_grow_events n)[3]? = some PoolEv.releaseLock ∧
    (∀ i, i < n → (allocate_grow_events n)[4 + i]? = some (PoolEv.pushBlock i)) ∧
    (allocate_grow_events n)[4 + n]? = some PoolEv.addTotal ∧
    (allocate_grow_events n)[5 + n]? = some PoolEv.popAttempt := by
  have hev : allocate_grow_events n =
      PoolEv.popAttempt :: PoolEv.acquireLock :: PoolEv.appendChunk :: PoolEv.releaseLock ::
        ((List.range n).map PoolEv.pushBlock ++ [PoolEv.addTotal, PoolEv.popAttempt]) := by
    simp [allocate_grow_events, add_chunk_events]
  refine ⟨?_, ?_, ?_, ?_, ?_, ?_, ?_, ?_⟩
  · rw [hev]
    simp only [List.length_cons, List.length_append, List.length_map, List.length_range,
      List.length_nil]
    omega
  · rw [hev]
    simp
  · rw [hev]
    simp
  · rw [hev]
    simp
  · rw [hev]
    simp
  · intro i hi
    rw [hev, show (4 + i = i + 1 + 1 + 1 + 1) from by omega]
    simp only [List.getElem?_cons_succ]
    rw [List.getElem?_append_left (by simpa using hi)]
    simp [List.getElem?_range hi]
  · rw [hev, show (4 + n = n + 1 + 1 + 1 + 1) from by omega]
    simp only [List.getElem?_cons_succ]
    rw [List.getElem?_append_right (by simp)]
    simp
  · rw [hev, show (5 + n = (n + 1) + 1 + 1 + 1 + 1) from by omega]
    simp only [List.getElem?_cons_succ]
    rw [List.getElem?_append_right (by simp)]
    simp only [List.length_map, List.length_range]
    rw [show n + 1 - n = 1 from by omega]
    rfl

/-- Witness for C2's amended ordering at `n = 1`. -/
theorem pool_growth_order_witness :
    (1 : Nat) < 1 + 1 ∧
    (allocate_grow_events 2)[4 + 1]? = some (PoolEv.pushBlock 1) :=
  ⟨by omega, (pool_growth_order 2).2.2.2.2.2.1 1 (by omega)⟩

/-! ## C6: balanced allocate/deallocate sequences

A single-threaded client run is a list of operations: `alloc`, and
`free b` which deallocates a block previously returned by `allocate` and
still owned by the caller.  The ghost list `live` tracks the blocks
currently in the caller's hands; a balanced run is one whose final `live`
list is empty (each successful allocate matched by exactly one deallocate
of the returned pointer). -/

/-- A block address lies within some chunk owned by the pool. -/
def blockInRange (chunks : List Nat) (b : Nat × Nat) : Prop :=
  ∃ n, chunks[b.1]? = some n ∧ b.2 < n

inductive PoolOp where
  | alloc
  | free (b : Nat × Nat)

def poolStep : PoolState × List (Nat × Nat) → PoolOp → PoolState × List (Nat × Nat)
  | (s, live), PoolOp.alloc =>
    match allocate s with
    | (s', some b) => (s', b :: live)
    | (s', none) => (s', live)
  | (s, live), PoolOp.free b =>
    if b ∈ live then (deallocate s (some b), live.erase b) else (s, live)

def poolRun (s0 : PoolState) (ops : List PoolOp) : PoolState × List (Nat × Nat) :=
  ops.foldl poolStep (s0, [])

/-- The pool invariant tied to the ghost `live` list: `allocated_count_`
counts the live blocks (modulo `2^64`, the `size_t` wrap), and both the
free list and the live blocks are in range of the owned chunks. -/
def PoolInv (s : PoolState) (live : List (Nat × Nat)) : Prop :=
  s.allocatedCount = live.length % U64 ∧
  (∀ b ∈ s.freeList, blockInRange s.chunks b) ∧
  (∀ b ∈ live, blockInRange s.chunks b)

theorem blockInRange_append {chunks : List Nat} {b : Nat × Nat} {n : Nat}
    (h : blockInRange chunks b) : blockInRange (chunks ++ [n]) b := by
  obtain ⟨m, hm, hb⟩ := h
  refine ⟨m, ?_, hb⟩
  rw [List.getElem?_append_left]
  · exact hm
  · exact (List.getElem?_eq_some_iff.mp hm).1

/-- The push loop of `add_chunk` appends the pushed blocks (in reverse) to
the free list and touches nothing else but the free-list tag. -/
theorem foldl_push_spec (idx : Nat) (l : List Nat) (st : PoolState) :
    ∃ tg, l.foldl (fun s2 i => push_free_node s2 (idx, i)) st =
      { st with
          freeList := (l.reverse.map (fun i => (idx, i))) ++ st.freeList
          freeTag := tg } := by
  induction l generalizing st with
  | nil => exact ⟨st.freeTag, by simp⟩
  | cons a l' ih =>
    obtain ⟨tg, htg⟩ := ih (push_free_node st (idx, a))
    refine ⟨tg, ?_⟩
    rw [List.foldl_cons, htg]
    simp [push_free_node]

theorem add_chunk_spec (s : PoolState) (n : Nat) :
    ∃ tg, add_chunk s n =
      { s with
          chunks := s.chunks ++ [n]
          freeList := ((List.range n).reverse.map (fun i => (s.chunks.length, i))) ++ s.freeList
          freeTag := tg
          totalBlocks := (s.totalBlocks + n) % U64 } := by
  obtain ⟨tg, htg⟩ := foldl_push_spec s.chunks.length (List.range n)
    { s with chunks := s.chunks ++ [n] }
  refine ⟨tg, ?_⟩
  unfold add_chunk
  simp only []
  rw [htg]

theorem add_chunk_inRange (s : PoolState) (n : Nat)
    (h : ∀ b ∈ s.freeList, blockInRange s.chunks b) :
    ∀ b ∈ (add_chunk s n).freeList, blockInRange (add_chunk s n).chunks b := by
  obtain ⟨tg, htg⟩ := add_chunk_spec s n
  rw [htg]
  intro b hb
  simp only [List.mem_append, List.mem_map, List.mem_reverse, List.mem_range] at hb
  rcases hb with ⟨i, hi, rfl⟩ | hb
  · refine ⟨n, ?_, hi⟩
    simp only
    rw [List.getElem?_append_right (le_refl _)]
    simp
  · exact blockInRange_append (h b hb)

theorem mod_u64_succ (x : Nat) : (x % U64 + 1) % U64 = (x + 1) % U64 := by
  unfold U64
  omega

theorem mod_u64_pred (x : Nat) (hx : 1 ≤ x) :
    (x % U64 + (U64 - 1)) % U64 = (x - 1) % U64 := by
  unfold U64
  omega

/-- Source `allocate` on a non-empty free list: pop the head, bump the count. -/
theorem allocate_eq_cons (s : PoolState) (b0 : Nat × Nat) (rest : List (Nat × Nat))
    (hfl : s.freeList = b0 :: rest) :
    allocate s =
      ({ s with
           freeList := rest
           freeTag := nextTag s.freeTag
           allocatedCount := (s.allocatedCount + 1) % U64 }, some b0) := by
  simp only [allocate, pop_free_node, hfl]

/-- Source `allocate` on an empty free list of a non-growable pool fails without
touching the state. -/
theorem allocate_eq_nongrow (s : PoolState) (hfl : s.freeList = [])
    (hg : s.growable = false) : allocate s = (s, none) := by
  simp only [allocate, pop_free_node, hfl, hg]
  simp

/-- Source `allocate` on an empty free list of a growable pool with
`chunk_size_ = 0`: the zero-block chunk is appended and the retried pop
fails. -/
theorem allocate_eq_grow_zero (s : PoolState) (hfl : s.freeList = [])
    (hg : s.growable = true) (hcs : s.chunkSize = 0) :
    ∃ tg, allocate s =
      ({ s with
           chunks := s.chunks ++ [0]
           freeList := []
           freeTag := tg
           totalBlocks := (s.totalBlocks + 0) % U64 }, none) := by
  obtain ⟨tg, htg⟩ := add_chunk_spec s 0
  rw [hfl, List.range_zero] at htg
  refine ⟨tg, ?_⟩
  simp only [allocate, pop_free_node, hfl, hg, hcs, if_true, htg]
  simp

/-- Source `allocate` on an empty free list of a growable pool with
`chunk_size_ = m + 1`: a chunk is appended, its blocks pushed, and the
retried pop returns the last-pushed block `(chunk index, m)`. -/
theorem allocate_eq_grow (s : PoolState) (hfl : s.freeList = [])
    (hg : s.growable = true) (m : Nat) (hcs : s.chunkSize = m + 1) :
    ∃ tg, allocate s =
      ({ s with
           chunks := s.chunks ++ [m + 1]
           freeList := (List.range m).reverse.map (fun i => (s.chunks.length, i))
           freeTag := tg
           totalBlocks := (s.totalBlocks + (m + 1)) % U64
           allocatedCount := (s.allocatedCount + 1) % U64 }, some (s.chunks.length, m)) := by
  obtain ⟨tg, htg⟩ := add_chunk_spec s (m + 1)
  have hfl2 : (add_chunk s (m + 1)).freeList = (s.chunks.length, m) ::
      (List.range m).reverse.map (fun i => (s.chunks.length, i)) := by
    rw [htg]
    simp [hfl, List.range_succ]
  refine ⟨nextTag (add_chunk s (m + 1)).freeTag, ?_⟩
  simp only [allocate, pop_free_node, hfl, hg, hcs, if_true, hfl2]
  rw [htg]
  simp
  exact ⟨hcs, hg⟩

/-- Source `allocate` preserves the invariant, the returned block being added to
the caller's hands; a returned block is in range of the pool's chunks. -/
theorem allocate_inv (s : PoolState) (live : List (Nat × Nat)) (h : PoolInv s live) :
    (∀ s' b, allocate s = (s', some b) → PoolInv s' (b :: live) ∧ blockInRange s'.chunks b) ∧
    (∀ s', allocate s = (s', none) → PoolInv s' live) := by
  obtain ⟨hcnt, hfree, hlive⟩ := h
  match hfl : s.freeList with
  | b0 :: rest =>
    have heq := allocate_eq_cons s b0 rest hfl
    have hb0 : blockInRange s.chunks b0 := by
      apply hfree
      rw [hfl]
      exact List.mem_cons_self _ _
    constructor
    · intro s' b hab
      rw [heq] at hab
      obtain ⟨hs', hb⟩ := Prod.mk.injEq .. |>.mp hab
      obtain rfl : b0 = b := by simpa using hb
      subst hs'
      refine ⟨⟨?_, ?_, ?_⟩, hb0⟩
      · simp only [List.length_cons]
        rw [hcnt]
        exact mod_u64_succ _
      · intro c hc
        simp only at hc
        apply hfree
        rw [hfl]
        exact List.mem_cons_of_mem _ hc
      · intro c hc
        rcases List.mem_cons.mp hc with rfl | hc
        · exact hb0
        · exact hlive c hc
    · intro s' hab
      rw [heq] at hab
      simp at hab
  | [] =>
    by_cases hg : s.growable = true
    · match hcs : s.chunkSize with
      | 0 =>
        obtain ⟨tg, heq⟩ := allocate_eq_grow_zero s hfl hg hcs
        constructor
        · intro s' b hab
          rw [heq] at hab
          simp at hab
        · intro s' hab
          rw [heq] at hab
          obtain ⟨hs', -⟩ := Prod.mk.injEq .. |>.mp hab
          subst hs'
          refine ⟨hcnt, ?_, ?_⟩
          · intro c hc
            simp at hc
          · intro c hc
            exact blockInRange_append (hlive c hc)
      | m + 1 =>
        obtain ⟨tg, heq⟩ := allocate_eq_grow s hfl hg m hcs
        have hbm : blockInRange (s.chunks ++ [m + 1]) (s.chunks.length, m) := by
          refine ⟨m + 1, ?_, by omega⟩
          rw [List.getElem?_append_right (le_refl _)]
          simp
        constructor
        · intro s' b hab
          rw [heq] at hab
          obtain ⟨hs', hb⟩ := Prod.mk.injEq .. |>.mp hab
          obtain rfl : (s.chunks.length, m) = b := by simpa using hb
          subst hs'
          refine ⟨⟨?_, ?_, ?_⟩, hbm⟩
          · simp only [List.length_cons]
            rw [hcnt]
            exact mod_u64_succ _
          · intro c hc
            simp only [List.mem_map, List.mem_reverse, List.mem_range] at hc
            obtain ⟨i, hi, rfl⟩ := hc
            refine ⟨m + 1, ?_, by omega⟩
            simp only
            rw [List.getElem?_append_right (le_refl _)]
            simp
          · intro c hc
            rcases List.mem_cons.mp hc with rfl | hc
            · exact hbm
            · exact blockInRange_append (hlive c hc)
        · intro s' hab
          rw [heq] at hab
          simp at hab
    · have hg' : s.growable = false := by
        cases hgv : s.growable
        · rfl
        · exact absurd hgv hg
      have heq := allocate_eq_nongrow s hfl hg'
      constructor
      · intro s' b hab
        rw [heq] at hab
        simp at hab
      · intro s' hab
        rw [heq] at hab
        obtain ⟨hs', -⟩ := Prod.mk.injEq .. |>.mp hab
        subst hs'
        exact ⟨hcnt, hfree, hlive⟩

/-- Source `deallocate` of a live block preserves the invariant. -/
theorem deallocate_inv (s : PoolState) (live : List (Nat × Nat)) (b : Nat × Nat)
    (h : PoolInv s live) (hb : b ∈ live) :
    PoolInv (deallocate s (some b)) (live.erase b) := by
  obtain ⟨hcnt, hfree, hlive⟩ := h
  have hlen : (live.erase b).length = live.length - 1 := List.length_erase_of_mem hb
  have hpos : 1 ≤ live.length := List.length_pos.mpr (by
    intro hnil
    rw [hnil] at hb
    simp at hb)
  refine ⟨?_, ?_, ?_⟩
  · simp only [deallocate, push_free_node]
    rw [hlen, hcnt]
    exact mod_u64_pred _ hpos
  · intro c hc
    simp only [deallocate, push_free_node] at hc ⊢
    rcases List.mem_cons.mp hc with rfl | hc
    · exact hlive c hb
    · exact hfree c hc
  · intro c hc
    simp only [deallocate, push_free_node]
    exact hlive c (List.mem_of_mem_erase hc)

/-- The invariant holds along every run. -/
theorem poolRun_inv_aux (ops : List PoolOp) :
    ∀ (s : PoolState) (live : List (Nat × Nat)), PoolInv s live →
      PoolInv (ops.foldl poolStep (s, live)).1 (ops.foldl poolStep (s, live)).2 := by
  induction ops with
  | nil => intro s live h; exact h
  | cons op ops ih =>
    intro s live h
    rw [List.foldl_cons]
    match op with
    | PoolOp.alloc =>
      match hval : allocate s with
      | (s', some b) =>
        have hstep : poolStep (s, live) PoolOp.alloc = (s', b :: live) := by
          simp [poolStep, hval]
        rw [hstep]
        exact ih s' (b :: live) ((allocate_inv s live h).1 s' b hval).1
      | (s', none) =>
        have hstep : poolStep (s, live) PoolOp.alloc = (s', live) := by
          simp [poolStep, hval]
        rw [hstep]
        exact ih s' live ((allocate_inv s live h).2 s' hval)
    | PoolOp.free b =>
      by_cases hmem : b ∈ live
      · have hstep : poolStep (s, live) (PoolOp.free b) =
            (deallocate s (some b), live.erase b) := by
          simp [poolStep, hmem]
        rw [hstep]
        exact ih _ _ (deallocate_inv s live b h hmem)
      · have hstep : poolStep (s, live) (PoolOp.free b) = (s, live) := by
          simp [poolStep, hmem]
        rw [hstep]
        exact ih s live h

/-- The constructed pool satisfies the invariant with nothing live. -/
theorem mkPool_inv (initial growable chunk_size) :
    PoolInv (mkPool initial growable chunk_size) [] := by
  unfold mkPool
  obtain ⟨tg, htg⟩ := add_chunk_spec _ initial
  rw [htg]
  refine ⟨by simp, ?_, by simp⟩
  intro b hb
  simp only [List.append_nil, List.mem_map, List.mem_reverse, List.mem_range] at hb
  obtain ⟨i, hi, rfl⟩ := hb
  exact ⟨initial, by simp, hi⟩

/-- Claim C6:  For every single-threaded sequence of pool operations in
which each deallocate frees a block previously returned by `allocate` and
not yet freed again: `allocated_count()` always equals the number of
blocks in the caller's hands (mod `2^64`), so a balanced run — final
`live` list empty — ends with `allocated_count() = 0`; every block the
caller holds, and every block a further successful `allocate` would
return, lies within the block range of some chunk owned by the pool. -/
theorem pool_balanced_run (initial chunk_size : Nat) (growable : Bool) (ops : List PoolOp) :
    allocated_count (poolRun (mkPool initial growable chunk_size) ops).1 =
      (poolRun (mkPool initial growable chunk_size) ops).2.length % U64 ∧
    ((poolRun (mkPool initial growable chunk_size) ops).2 = [] →
      allocated_count (poolRun (mkPool initial growable chunk_size) ops).1 = 0) ∧
    (∀ b ∈ (poolRun (mkPool initial growable chunk_size) ops).2,
      blockInRange (poolRun (mkPool initial growable chunk_size) ops).1.chunks b) ∧
    (∀ s' b, allocate (poolRun (mkPool initial growable chunk_size) ops).1 = (s', some b) →
      blockInRange s'.chunks b) := by
  have hinv := poolRun_inv_aux ops (mkPool initial growable chunk_size) []
    (mkPool_inv initial growable chunk_size)
  have hrun : (poolRun (mkPool initial growable chunk_size) ops) =
      ops.foldl poolStep (mkPool initial growable chunk_size, []) := rfl
  rw [hrun] at *
  refine ⟨hinv.1, ?_, hinv.2.2, ?_⟩
  · intro hnil
    rw [allocated_count, hinv.1, hnil]
    rfl
  · intro s' b hab
    exact ((allocate_inv _ _ hinv).1 s' b hab).2

/-- Witness for C6: on a fixed two-block pool, allocate then free the
returned block; the run is balanced and `allocated_count` is back to
zero. -/
theorem pool_balanced_run_witness :
    (poolRun (mkPool 2 false 0) [PoolOp.alloc, PoolOp.free (0, 1)]).2 = [] ∧
    allocated_count (poolRun (mkPool 2 false 0) [PoolOp.alloc, PoolOp.free (0, 1)]).1 = 0 :=
  ⟨by decide,
   (pool_balanced_run 2 0 false [PoolOp.alloc, PoolOp.free (0, 1)]).2.1 (by decide)⟩

end MemoryPool

/-! # 4. Job system (`include/lockfree/job_system.hpp`, `src/job_system.cpp`)

Job pointers are abstracted as numeric ids.  The job queue `job_queue_` is
the MPMC queue of section 1; the member declaration
`MPMCQueue<Job*> job_queue_;` fixes its capacity at compile time (the
class constant `DEFAULT_QUEUE_SIZE`), independent of any constructor
argument. -/

namespace JobSystem

/-- Source `JobSystem::DEFAULT_QUEUE_SIZE`. -/
def DEFAULT_QUEUE_SIZE : Nat := 4096

/-- Source `JobSystem::DEFAULT_POOL_SIZE`. -/
def DEFAULT_POOL_SIZE : Nat := 4096

/-- The scheduler state built by the constructor: the job pool, the job
queue, `running_`, `pending_jobs_`, and the number of worker threads
started. -/
structure JSState where
  jobPool : MemoryPool.PoolState
  jobQueue : MQueue Nat
  running : Bool
  pendingJobs : Nat
  numWorkers : Nat
  deriving Repr, DecidableEq

/-- Source `JobSystem::JobSystem(num_workers, queue_size, pool_size)`
(src/job_system.cpp:15-31): initialises `job_pool_(pool_size)` (a growable
`MemoryPool` with default `chunk_size = 0`), `running_(true)`,
`pending_jobs_(0)`; the member `job_queue_` is default-constructed with
its compile-time capacity; `queue_size` is declared `[[maybe_unused]]`
and never read.  `num_workers == 0` selects
`std::thread::hardware_concurrency()`, abstracted as the parameter
`hardware_concurrency`. -/
def mkJobSystem (hardware_concurrency num_workers queue_size pool_size : Nat) : JSState :=
  let _unused := queue_size
  { jobPool := MemoryPool.mkPool pool_size true 0
    jobQueue := initQueue Nat DEFAULT_QUEUE_SIZE 0
    running := true
    pendingJobs := 0
    numWorkers := if num_workers = 0 then hardware_concurrency else num_workers }

/-- Claim C9:  The constructor's `queue_size` argument has no effect: any
two values (all other arguments equal) construct identical scheduler
states, because the job queue's capacity is a compile-time constant and
the runtime parameter is discarded. -/
theorem jobsystem_queue_size_ignored (hw nw qs1 qs2 ps : Nat) :
    mkJobSystem hw nw qs1 ps = mkJobSystem hw nw qs2 ps := rfl

/-- Source `JobSystem::schedule(Job*)` (src/job_system.cpp:55-58):
`pending_jobs_.fetch_add(1)`, then `job_queue_.push(job)` — the boolean
result of the push is discarded. -/
def schedule (fuel : Nat) (s : JSState) (job : Nat) : Option JSState :=
  match pushAux fuel s.jobQueue job with
  | some (q', _ok) =>
    some { s with pendingJobs := (s.pendingJobs + 1) % U64, jobQueue := q' }
  | none => none

/-- A successful pop returns one of the queue's current contents. -/
theorem popAux_mem_contents {T : Type} (q : MQueue T) (hq : QInv q) :
    ∀ (fuel : Nat) (out : T) (q' : MQueue T) (v : T),
      popAux fuel q out = some (q', v, true) → v ∈ queueContents q := by
  intro fuel out q' v hpop
  match fuel with
  | 0 => exact absurd hpop (by simp [popAux])
  | f + 1 =>
    rw [popAux_behavior q out hq f] at hpop
    by_cases hempty : q.head = q.tail
    · rw [dif_pos hempty] at hpop
      simp at hpop
    · rw [dif_neg hempty] at hpop
      obtain ⟨k, hcap, hk, hlen, hth, hht, hslot⟩ := hq
      have hcappos : 0 < q.cap := by
        rw [hcap]
        exact Nat.pos_pow_of_pos _ (by norm_num)
      obtain ⟨d, hd⟩ := hslot q.tail (le_refl _) (by omega)
      rw [hd] at hpop
      simp only at hpop
      cases hpop
      unfold queueContents
      apply List.mem_filterMap.mpr
      refine ⟨0, ?_, ?_⟩
      · apply List.mem_range.mpr
        omega
      · rw [Nat.add_zero, hd]
        rfl

/-- Claim C8:  On a reachable full job queue, `schedule(Job*)` still
increments `pending_jobs_` and leaves the queue unchanged: the `false`
returned by the push is discarded and the job pointer is dropped.  The
job is then not among the queue's contents (it was not enqueued), and
since workers obtain work only by popping the queue — and a pop only
yields current contents — the dropped job is never executed, its counter
never decremented, its storage never returned. -/
theorem schedule_full_drops_job (s : JSState) (job : Nat) (fuel : Nat)
    (hq : Reach Nat s.jobQueue) (hfull : mqFull s.jobQueue = true) :
    schedule (fuel + 1) s job =
      some { s with pendingJobs := (s.pendingJobs + 1) % U64 } ∧
    (job ∉ queueContents s.jobQueue →
      ∀ (fuel2 : Nat) (out : Nat) (q' : MQueue Nat) (v : Nat),
        popAux fuel2 s.jobQueue out = some (q', v, true) → v ≠ job) := by
  have hinv := Reach_QInv _ hq
  have hpush := pushAux_behavior s.jobQueue job hinv fuel
  rw [if_pos ((mqFull_iff _ hinv).mp hfull)] at hpush
  constructor
  · unfold schedule
    rw [hpush]
  · intro hnotin fuel2 out q' v hpop hvj
    apply hnotin
    rw [← hvj]
    exact popAux_mem_contents s.jobQueue hinv fuel2 out q' v hpop

/-- Witness for C8: a capacity-2 queue filled by two pushes is full;
`schedule` of job `9` on it yields only the pending-count bump. -/
theorem schedule_full_drops_job_witness :
    mqFull (MQueue.mk 2 [(5, 1), (6, 2)] 2 0) = true ∧
    schedule 1
      (JSState.mk (MemoryPool.mkPool 1 false 0) (MQueue.mk 2 [(5, 1), (6, 2)] 2 0) true 0 1) 9 =
    some (JSState.mk (MemoryPool.mkPool 1 false 0) (MQueue.mk 2 [(5, 1), (6, 2)] 2 0) true
      ((0 + 1) % U64) 1) := by
  have r0 : Reach Nat (initQueue Nat (2 ^ 1) 0) := Reach.init 1 (le_refl 1) 0
  have r1 : Reach Nat (MQueue.mk 2 [(5, 1), (0, 1)] 1 0) :=
    Reach.push _ _ 5 true 1 r0 (by decide)
  have r2 : Reach Nat (MQueue.mk 2 [(5, 1), (6, 2)] 2 0) :=
    Reach.push _ _ 6 true 1 r1 (by decide)
  have h := schedule_full_drops_job
    (JSState.mk (MemoryPool.mkPool 1 false 0) (MQueue.mk 2 [(5, 1), (6, 2)] 2 0) true 0 1)
    9 0 r2 (by decide)
  exact ⟨by decide, h.1⟩

/-! ## C1: the finish protocol

`Job`'s immutable links — `Counter* counter` and `Job* parent` — are
abstracted as indices into fixed tables; the mutable data `finish`
touches are each counter's `value`, each job's `unfinished_jobs`
(`std::int32_t`, kept as `Int`: the runs considered stay far from the
32-bit wrap), the job's storage (`alive` flag standing for the pool
block), and `pending_jobs_`. -/

structure FJob where
  counter : Option Nat
  parent : Option Nat
  deriving Repr, DecidableEq

structure FState where
  counters : List Int
  unfinished : List Int
  alive : List Bool
  pending : Nat
  deriving Repr, DecidableEq

/-- Trace events of the finish protocol; each records the job on whose
behalf the step was taken. -/
inductive FEv where
  | decCounter (job cid : Nat)
  | decUnfinished (job : Nat)
  | destroyJob (job : Nat)
  | decPending (job : Nat)
  deriving Repr, DecidableEq

/-- Source `JobSystem::finish(Job*)` (src/job_system.cpp:121-135),
single-threaded, instrumented with the trace of its effects:
1. `if (job->counter) job->counter->decrement();`
2. `prev = job->unfinished_jobs.fetch_sub(1);`
3. `if (prev == 1) { parent = job->parent; job_pool_.destroy(job);
   pending_jobs_.fetch_sub(1); if (parent) finish(parent); }`
The fuel bounds the depth of the parent-chain recursion. -/
def finish (jobs : List FJob) : Nat → Nat → FState → FState × List FEv
  | 0, _, st => (st, [])
  | fuel + 1, j, st =>
    match jobs[j]? with
    | none => (st, [])
    | some jb =>
      let stev1 :=
        match jb.counter with
        | some c =>
          ({ st with counters := st.counters.modify (fun x => x - 1) c },
           [FEv.decCounter j c])
        | none => (st, [])
      let st1 := stev1.1
      let prev := (st1.unfinished[j]?).getD (0 : Int)
      let st2 := { st1 with unfinished := st1.unfinished.modify (fun x => x - 1) j }
      let evs2 := stev1.2 ++ [FEv.decUnfinished j]
      if prev = 1 then
        let parent := jb.parent
        let st3 := { st2 with alive := st2.alive.set j false }
        let st4 := { st3 with pending := (st3.pending + (U64 - 1)) % U64 }
        let evs3 := evs2 ++ [FEv.destroyJob j, FEv.decPending j]
        match parent with
        | some p =>
          let r := finish jobs fuel p st4
          (r.1, evs3 ++ r.2)
        | none => (st4, evs3)
      else (st2, evs2)

/-- How many times a trace decremented a counter on behalf of job `j`. -/
def countDec (evs : List FEv) (j : Nat) : Nat :=
  (evs.filter (fun e => match e with
    | FEv.decCounter j2 _ => j2 == j
    | _ => false)).length

/-- A parent job (id 0, counter id 0, no parent) with `k` children
(ids `1..k`, no counters, parent 0); the parent's `unfinished_jobs`
starts at `1 + k`, each child's at `1`. -/
def familyJobs (k : Nat) : List FJob :=
  FJob.mk (some 0) none :: List.replicate k (FJob.mk none (some 0))

/-- Finish one job, accumulating the trace. -/
def familyStep (jobs : List FJob) (fuel : Nat) (acc : FState × List FEv) (i : Nat) :
    FState × List FEv :=
  let r := finish jobs fuel i acc.1
  (r.1, acc.2 ++ r.2)

/-- The sequential run completing the whole family: the parent's payload
finishes first (one `finish(0)`), then each child's in turn
(`finish(1) .. finish(k)`), each completed child recursing into the
parent's finish.  `v` is the counter's initial value, `p` the initial
`pending_jobs_`. -/
def familyRun (k : Nat) (v : Int) (p : Nat) : FState × List FEv :=
  let s0 : FState :=
    FState.mk [v] (((1 + k : Nat) : Int) :: List.replicate k 1)
      (List.replicate (k + 1) true) p
  let r0 := finish (familyJobs k) (k + 2) 0 s0
  (List.range k).foldl
    (fun acc i => familyStep (familyJobs k) (k + 2) acc (i + 1))
    (r0.1, r0.2)

/-- The property claimed (C1): over a whole completed run, every job with
a non-null counter has that counter decremented exactly once on its
behalf. -/
def DecExactlyOnce (jobs : List FJob) (evs : List FEv) : Prop :=
  ∀ (j : Nat) (jb : FJob) (c : Nat),
    jobs[j]? = some jb → jb.counter = some c → countDec evs j = 1

/-- Claim C1, counterexample:  A parent with one child and a non-null
counter: over the run the counter is decremented twice on the parent's
behalf — once when the parent's own payload finishes and once more when
the child's completed finish recurses into the parent — so it is not
decremented exactly once. -/
theorem finish_counter_twice_cex :
    countDec (familyRun 1 1 2).2 0 = 2 ∧
    (familyJobs 1)[0]? = some (FJob.mk (some 0) none) ∧
    ¬ DecExactlyOnce (familyJobs 1) (familyRun 1 1 2).2 := by
  refine ⟨by decide, by decide, ?_⟩
  intro h
  have h1 := h 0 (FJob.mk (some 0) none) 0 (by decide) rfl
  have h2 : countDec (familyRun 1 1 2).2 0 = 2 := by decide
  omega

theorem countDec_append (a b : List FEv) (j : Nat) :
    countDec (a ++ b) j = countDec a j + countDec b j := by
  simp [countDec, List.filter_append]

/-- One entry of the finish protocol on the parent (counter `c0`, no
parent): it emits exactly one counter decrement on the parent's behalf,
and leaves every other job's `unfinished_jobs` untouched. -/
theorem finish_parent_spec (jobs : List FJob) (c0 : Nat)
    (hj : jobs[0]? = some (FJob.mk (some c0) none)) (fuel : Nat) (st : FState) :
    countDec (finish jobs (fuel + 1) 0 st).2 0 = 1 ∧
    ∀ i, i ≠ 0 → (finish jobs (fuel + 1) 0 st).1.unfinished[i]? = st.unfinished[i]? := by
  constructor
  · simp only [finish, hj]
    split
    · simp [countDec]
    · simp [countDec]
  · intro i hi
    have h0i : ¬ ((0 : Nat) = i) := fun hh => hi hh.symm
    simp only [finish, hj]
    split
    · simp only []
      rw [List.getElem?_modify]
      cases st.unfinished[i]? <;> simp [h0i]
    · simp only []
      rw [List.getElem?_modify]
      cases st.unfinished[i]? <;> simp [h0i]

/-- One-step evaluation of `finish` on a completed child: the child's own
steps, then the recursion into the parent. -/
theorem finish_child_step (jobs : List FJob) (j : Nat)
    (hjc : jobs[j]? = some (FJob.mk none (some 0)))
    (fuel : Nat) (st : FState) (hu : st.unfinished[j]? = some 1) :
    finish jobs (fuel + 1) j st =
      ((finish jobs fuel 0
          { st with
              unfinished := st.unfinished.modify (fun x => x - 1) j
              alive := st.alive.set j false
              pending := (st.pending + (U64 - 1)) % U64 }).1,
       (([] ++ [FEv.decUnfinished j]) ++ [FEv.destroyJob j, FEv.decPending j]) ++
        (finish jobs fuel 0
          { st with
              unfinished := st.unfinished.modify (fun x => x - 1) j
              alive := st.alive.set j false
              pending := (st.pending + (U64 - 1)) % U64 }).2) := by
  have hprev : ((st.unfinished[j]?).getD (0 : Int)) = 1 := by
    rw [hu]
    rfl
  conv_lhs => rw [finish]
  simp only [hjc]
  rw [if_pos hprev]

/-- One entry of the finish protocol on a completed child (`unfinished_jobs
= 1`, no counter, parent 0): the child's entry itself decrements no
counter, but its recursion into the parent's finish decrements the
parent's counter exactly once; `unfinished_jobs` of jobs other than the
child and the parent are untouched. -/
theorem finish_child_spec (jobs : List FJob) (c0 j : Nat)
    (hj0 : jobs[0]? = some (FJob.mk (some c0) none))
    (hjc : jobs[j]? = some (FJob.mk none (some 0)))
    (fuel : Nat) (st : FState)
    (hu : st.unfinished[j]? = some 1) :
    countDec (finish jobs (fuel + 1 + 1) j st).2 0 = 1 ∧
    ∀ i, i ≠ 0 → i ≠ j →
      (finish jobs (fuel + 1 + 1) j st).1.unfinished[i]? = st.unfinished[i]? := by
  have hps := finish_parent_spec jobs c0 hj0 fuel
  rw [finish_child_step jobs j hjc (fuel + 1) st hu]
  constructor
  · rw [countDec_append, (hps _).1]
    simp [countDec]
  · intro i hi hij
    have hji : ¬ (j = i) := fun hh => hij hh.symm
    rw [(hps _).2 i hi]
    simp only []
    rw [List.getElem?_modify]
    cases st.unfinished[i]? <;> simp [hji]

/-- Folding the finish protocol over children `1 .. n`: each child adds
exactly one counter decrement on the parent's behalf, and the
`unfinished_jobs` of jobs outside `{0, 1, .., n}` stay untouched. -/
theorem finish_children_fold (jobs : List FJob) (c0 : Nat)
    (hj0 : jobs[0]? = some (FJob.mk (some c0) none)) (fuel : Nat) :
    ∀ (n : Nat) (st : FState) (evs0 : List FEv),
      (∀ i, i < n → jobs[i + 1]? = some (FJob.mk none (some 0)) ∧
        st.unfinished[i + 1]? = some 1) →
      countDec (((List.range n).foldl
          (fun acc i => familyStep jobs (fuel + 1 + 1) acc (i + 1)) (st, evs0)).2) 0 =
        countDec evs0 0 + n ∧
      ∀ m, m ≠ 0 → (∀ i, i < n → m ≠ i + 1) →
        (((List.range n).foldl
          (fun acc i => familyStep jobs (fuel + 1 + 1) acc (i + 1)) (st, evs0)).1).unfinished[m]? =
          st.unfinished[m]? := by
  intro n
  induction n with
  | zero =>
    intro st evs0 _
    simp
  | succ n ih =>
    intro st evs0 hprop
    have hfold : (List.range (n + 1)).foldl
        (fun acc i => familyStep jobs (fuel + 1 + 1) acc (i + 1)) (st, evs0) =
        familyStep jobs (fuel + 1 + 1)
          ((List.range n).foldl
            (fun acc i => familyStep jobs (fuel + 1 + 1) acc (i + 1)) (st, evs0)) (n + 1) := by
      rw [List.range_succ, List.foldl_append, List.foldl_cons, List.foldl_nil]
    obtain ⟨ihc, ihs⟩ := ih st evs0 (fun i hi => hprop i (by omega))
    set acc := (List.range n).foldl
      (fun acc i => familyStep jobs (fuel + 1 + 1) acc (i + 1)) (st, evs0) with hacc
    have hun : acc.1.unfinished[n + 1]? = some 1 := by
      rw [ihs (n + 1) (by omega) (by intro i hi; omega)]
      exact (hprop n (by omega)).2
    have hcs := finish_child_spec jobs c0 (n + 1) hj0 (hprop n (by omega)).1 fuel acc.1 hun
    constructor
    · rw [hfold]
      show countDec (acc.2 ++ (finish jobs (fuel + 1 + 1) (n + 1) acc.1).2) 0 = _
      rw [countDec_append, ihc, hcs.1]
      omega
    · intro m hm hmi
      rw [hfold]
      show (finish jobs (fuel + 1 + 1) (n + 1) acc.1).1.unfinished[m]? = _
      rw [hcs.2 m hm (hmi n (by omega))]
      exact ihs m hm (fun i hi => hmi i (by omega))

/-- Claim C1, amended:  Over the completed sequential run of a parent (id 0)
with counter and `k` children, the counter is decremented on the parent's
behalf once per entry into the parent's finish protocol: once when the
parent's own payload finishes, plus once for each child whose completed
finish recurses into the parent — `1 + k` times in total.  For a job with
no children (`k = 0`) this is exactly once, as the spec states. -/
theorem finish_counter_per_entry (k : Nat) (v : Int) (p : Nat) :
    countDec (familyRun k v p).2 0 = 1 + k := by
  have hj0 : (familyJobs k)[0]? = some (FJob.mk (some 0) none) := by
    simp [familyJobs]
  unfold familyRun
  simp only []
  set s0 : FState :=
    FState.mk [v] (((1 + k : Nat) : Int) :: List.replicate k 1)
      (List.replicate (k + 1) true) p with hs0
  have hps := finish_parent_spec (familyJobs k) 0 hj0 (k + 1) s0
  have hk2 : k + 1 + 1 = k + 2 := rfl
  have hchain := finish_children_fold (familyJobs k) 0 hj0 k k
    (finish (familyJobs k) (k + 2) 0 s0).1
    (finish (familyJobs k) (k + 2) 0 s0).2
    (by
      intro i hi
      constructor
      · simp only [familyJobs]
        rw [List.getElem?_cons_succ]
        exact List.getElem?_replicate_of_lt hi
      · rw [← hk2, hps.2 (i + 1) (by omega)]
        rw [hs0]
        simp only []
        rw [List.getElem?_cons_succ]
        exact List.getElem?_replicate_of_lt hi)
  rw [hk2] at hchain
  rw [hchain.1, ← hk2, hps.1]

end JobSystem

end LockFree
